import Mathlib

/-!
Shallow embedding of `src/movie/camera_apply.py` (easing, beat timeline
compilation, frame transform, SRT subtitle writer) and of the
default-strategy cascade of `src/scripts/detect_regions.py`.

Python floats are modelled as exact rationals (`ℚ`); where a property
turns on the float rounding itself, the IEEE-754 binary64 evaluation is
modelled explicitly (`fl64`).  Python's built-in `round` (banker's
rounding, round-half-to-even) is `pyRound`; `int(...)` truncation toward
zero is `pyInt`; the float `%` operator is `pyMod`; integer `//` is
`Int.fdiv`.  NumPy arrays of length `total_frames` are modelled as
functions `ℕ → _` written by slice assignments, exactly as the code's
loops perform them.
-/

unseal Rat.add Rat.mul Rat.inv Rat.sub Rat.ofScientific

/-- Python's built-in `round` applied to a float: round half to even. -/
def pyRound (q : ℚ) : ℤ :=
  if Int.fract q = 1/2 then (if ⌊q⌋ % 2 = 0 then ⌊q⌋ else ⌊q⌋ + 1) else round q

/-- Python's `int(...)` applied to a float: truncation toward zero. -/
def pyInt (q : ℚ) : ℤ :=
  if q < 0 then -⌊-q⌋ else ⌊q⌋

/-- Python's float `%` operator (result has the sign of the divisor). -/
def pyMod (a b : ℚ) : ℚ := a - b * ⌊a / b⌋

theorem pyRound_le (q : ℚ) : (pyRound q : ℚ) ≤ q + 1/2 := by
  unfold pyRound
  split
  case isTrue h =>
    rw [Int.fract] at h
    split <;> push_cast <;> linarith
  case isFalse h =>
    rw [round_eq]
    exact Int.floor_le (q + 1/2)

theorem le_pyRound (q : ℚ) : q - 1/2 ≤ (pyRound q : ℚ) := by
  unfold pyRound
  split
  case isTrue h =>
    rw [Int.fract] at h
    split <;> push_cast <;> linarith
  case isFalse h =>
    rw [round_eq]
    have := Int.sub_one_lt_floor (q + 1/2)
    linarith

theorem pyRound_le_floor (q : ℚ) : pyRound q ≤ ⌊q + 1/2⌋ := by
  unfold pyRound
  split
  case isTrue h =>
    rw [Int.fract] at h
    have hq : q + 1/2 = ((⌊q⌋ + 1 : ℤ) : ℚ) := by push_cast; linarith
    rw [hq, Int.floor_intCast]
    split <;> omega
  case isFalse h =>
    rw [round_eq]

theorem ceil_le_pyRound (q : ℚ) : ⌈q - 1/2⌉ ≤ pyRound q := by
  unfold pyRound
  split
  case isTrue h =>
    rw [Int.fract] at h
    have hq : q - 1/2 = ((⌊q⌋ : ℤ) : ℚ) := by linarith
    rw [hq, Int.ceil_intCast]
    split <;> omega
  case isFalse h =>
    rw [round_eq]
    apply Int.ceil_le.mpr
    have := Int.sub_one_lt_floor (q + 1/2)
    linarith

theorem pyRound_mono {a b : ℚ} (h : a ≤ b) : pyRound a ≤ pyRound b := by
  rcases eq_or_lt_of_le h with rfl | hlt
  · exact le_refl _
  · have h1 : pyRound a ≤ ⌊a + 1/2⌋ := pyRound_le_floor a
    have h2 : ⌈b - 1/2⌉ ≤ pyRound b := ceil_le_pyRound b
    have h3 : ⌊a + 1/2⌋ ≤ ⌈b - 1/2⌉ := by
      have hf : ((⌊a + 1/2⌋ - 1 : ℤ) : ℚ) < b - 1/2 := by
        have := Int.floor_le (a + 1/2)
        push_cast
        linarith
      have := Int.lt_ceil.mpr hf
      omega
    omega

theorem pyRound_intCast (n : ℤ) : pyRound (n : ℚ) = n := by
  unfold pyRound
  rw [Int.fract_intCast]
  norm_num

theorem pyRound_natCast (n : ℕ) : pyRound (n : ℚ) = n := by
  have : ((n : ℤ) : ℚ) = (n : ℚ) := by push_cast; ring
  rw [← this, pyRound_intCast]

theorem pyRound_nonneg {q : ℚ} (h : 0 ≤ q) : 0 ≤ pyRound q := by
  have h1 := le_pyRound q
  have h2 : (-1 : ℚ) < (pyRound q : ℚ) := by linarith
  have h3 : (-1 : ℤ) < pyRound q := by exact_mod_cast h2
  omega

/-!
Easing evaluator, `camera_apply.py` lines 48-76.
-/

/-- The `BEZIERS` dict (lines 48-54) as a lookup; `none` models
`mode not in BEZIERS` (an unrecognized mode). -/
def BEZIERS (mode : String) : Option (ℚ × ℚ × ℚ × ℚ) :=
  if mode = "linear" then some (0.0, 0.0, 1.0, 1.0)
  else if mode = "ease" then some (0.25, 0.1, 0.25, 1.0)
  else if mode = "ease-in" then some (0.42, 0.0, 1.0, 1.0)
  else if mode = "ease-out" then some (0.0, 0.0, 0.58, 1.0)
  else if mode = "ease-in-out" then some (0.42, 0.0, 0.58, 1.0)
  else none

/-- Source `_bezier_x` (line 56); the leading underscore is dropped. -/
def bezier_x (s p1x p2x : ℚ) : ℚ := 3*p1x*s*(1-s)^2 + 3*p2x*s^2*(1-s) + s^3

/-- Source `_bezier_y` (line 59); the leading underscore is dropped. -/
def bezier_y (s p1y p2y : ℚ) : ℚ := 3*p1y*s*(1-s)^2 + 3*p2y*s^2*(1-s) + s^3

/-- The binary-search loop of `cubic_bezier` (lines 63-69): the fuel argument
is the remaining iteration count, the pair is the current `(lo, hi)`. -/
def bisect (t p1x p2x : ℚ) : ℕ → ℚ × ℚ → ℚ × ℚ
  | 0, lh => lh
  | k+1, lh =>
    let mid := (lh.1 + lh.2) / 2
    if bezier_x mid p1x p2x < t then bisect t p1x p2x k (mid, lh.2)
    else bisect t p1x p2x k (lh.1, mid)

/-- Source `cubic_bezier` (lines 62-70); the `iterations` parameter always
takes its default value 16 in this program. -/
def cubic_bezier (t p1x p1y p2x p2y : ℚ) : ℚ :=
  let lh := bisect t p1x p2x 16 (0.0, 1.0)
  bezier_y ((lh.1 + lh.2) / 2) p1y p2y

/-- Source `ease` (lines 72-76). -/
def ease (t : ℚ) (mode : String) : ℚ :=
  let tc := max 0.0 (min 1.0 t)
  if mode = "CUT" ∨ mode = "HOLD" then 1.0
  else
    match BEZIERS mode with
    | none => 1.0
    | some (p1x, p1y, p2x, p2y) => cubic_bezier tc p1x p1y p2x p2y

/-!
Claim C4 concerns the endpoint behaviour of `ease`.  The 16-iteration
binary search never evaluates the curve at the exact parameter 0 or 1:
at `t = 0` it narrows to `(0, 2^-16)` and returns the curve's Y at
`2^-17 > 0`, so `ease 0 mode` is slightly positive for every one of the
five named modes, not exactly 0; symmetrically `ease 1 mode` is slightly
below 1.
-/

/-- C4 counterexample: the claim asserts `ease(0, mode) = 0` exactly for
the five named modes; already for `"linear"` the returned value is the
Bezier Y at `2^-17`, which is positive. -/
theorem ease_zero_linear_not_zero : ease 0 "linear" ≠ 0 := by decide

/-- C4 amended: for each of the five named modes the endpoint values are
only approximate: `0 < ease 0 mode < 1/1024` and
`1 - 1/1024 < ease 1 mode < 1`; and for CUT, HOLD, or any mode outside
the `BEZIERS` table, `ease t mode = 1` for every `t > 0`. -/
theorem ease_endpoints_approx :
    (0 < ease 0 "linear" ∧ ease 0 "linear" < 1/1024 ∧
     0 < ease 0 "ease" ∧ ease 0 "ease" < 1/1024 ∧
     0 < ease 0 "ease-in" ∧ ease 0 "ease-in" < 1/1024 ∧
     0 < ease 0 "ease-out" ∧ ease 0 "ease-out" < 1/1024 ∧
     0 < ease 0 "ease-in-out" ∧ ease 0 "ease-in-out" < 1/1024) ∧
    (1 - 1/1024 < ease 1 "linear" ∧ ease 1 "linear" < 1 ∧
     1 - 1/1024 < ease 1 "ease" ∧ ease 1 "ease" < 1 ∧
     1 - 1/1024 < ease 1 "ease-in" ∧ ease 1 "ease-in" < 1 ∧
     1 - 1/1024 < ease 1 "ease-out" ∧ ease 1 "ease-out" < 1 ∧
     1 - 1/1024 < ease 1 "ease-in-out" ∧ ease 1 "ease-in-out" < 1) ∧
    (∀ (t : ℚ) (mode : String),
      (mode = "CUT" ∨ mode = "HOLD" ∨ BEZIERS mode = none) → 0 < t →
      ease t mode = 1) := by
  refine ⟨by decide, by decide, ?_⟩
  intro t mode h _
  rcases h with h | h | h
  · simp [ease, h]
    norm_num
  · simp [ease, h]
    norm_num
  · by_cases hch : mode = "CUT" ∨ mode = "HOLD"
    · simp [ease, hch]
      norm_num
    · simp [ease, hch, h]
      norm_num

/-- C4 amended witness at the concrete input `t = 1/2`, `mode = "CUT"`. -/
theorem ease_endpoints_approx_witness :
    (0 : ℚ) < 1/2 ∧ ease (1/2) "CUT" = 1 :=
  ⟨by norm_num, ease_endpoints_approx.2.2 (1/2) "CUT" (Or.inl rfl) (by norm_num)⟩

/-!
Data model: one beat of the camera script (spec section 3, and the dict
accesses in `build_frame_params` lines 92-97).
-/

structure Camera where
  zoom : ℚ
  focusX : ℚ
  focusY : ℚ
  transition : String
  duration : ℚ

structure Beat where
  id : String
  camera : Camera
  script : String

/-- Dummy beat used as the (never reached) default of in-bounds lookups. -/
def defaultBeat : Beat := ⟨"", ⟨0, 0, 0, "", 0⟩, ""⟩

/-- `beats[bi]["camera"]`; all uses are in bounds, so `getD`'s default is
never reached. -/
def camOf (beats : List Beat) (bi : ℕ) : Camera := (beats.getD bi defaultBeat).camera

/-!
Beat timeline compiler, `camera_apply.py` lines 83-141.  The slice boundary
frames are written exactly as the two functions compute them:
`build_frame_params` (line 107) rounds `bi * (total_frames / n_beats)`
with `beat_frames` precomputed, `build_beat_index` (line 138) rounds
`bi * total_frames / n` (Python evaluates this as `(bi*total_frames)/n`).
-/

/-- `f_start` of `build_frame_params` line 107: `int(round(bi * beat_frames))`
with `beat_frames = total_frames / n_beats` (line 85). -/
def paramStart (n tf bi : ℕ) : ℤ := pyRound ((bi : ℚ) * ((tf : ℚ) / (n : ℚ)))

/-- `f_end` of `build_frame_params` line 108. -/
def paramEnd (n tf bi : ℕ) : ℤ := min (paramStart n tf (bi+1)) (tf : ℤ)

/-- `f_start` of `build_beat_index` line 138: `int(round(bi * total_frames / n))`. -/
def idxStart (n tf bi : ℕ) : ℤ := pyRound (((bi : ℚ) * (tf : ℚ)) / (n : ℚ))

/-- `f_end` of `build_beat_index` line 139. -/
def idxEnd (n tf bi : ℕ) : ℤ := min (idxStart n tf (bi+1)) (tf : ℤ)

/-- A loop of NumPy slice assignments `arr[lo bi : hi bi] = g bi ·` over
`bi in range(n)`, starting from the array `init`; arrays are modelled as
functions on frame indices. -/
def sliceWrites {α : Type} (g : ℕ → ℕ → α) (lo hi : ℕ → ℤ) (init : ℕ → α) (n : ℕ) :
    ℕ → α :=
  (List.range n).foldl
    (fun h bi => fun f => if lo bi ≤ (f : ℤ) ∧ (f : ℤ) < hi bi then g bi f else h f) init

/-- Source `build_beat_index` (lines 134-141); only the length of `beats`
is used, so the model takes `n = len(beats)` directly.  The array starts
as `np.zeros` and each slice is overwritten with its beat index. -/
def build_beat_index (n tf : ℕ) : ℕ → ℕ :=
  sliceWrites (fun bi _ => bi) (idxStart n tf) (idxEnd n tf) (fun _ => 0) n

/-- `tr_frames` after lines 110-112: `int(round(tr_dur * fps))`, forced to 0
for CUT/HOLD transitions or zero duration. -/
def tr_frames (cam : Camera) (fps : ℚ) : ℤ :=
  if cam.transition = "CUT" ∨ cam.transition = "HOLD" ∨ cam.duration = 0 then 0
  else pyRound (cam.duration * fps)

/-- The from-values of slice `bi` (lines 99-105): beat `bi-1`'s camera,
or beat `bi`'s own camera when `bi == 0`. -/
def fromCam (beats : List Beat) (bi : ℕ) : Camera :=
  if bi = 0 then camOf beats bi else camOf beats (bi - 1)

/-- The value written at local offset `local` of a slice (lines 114-125),
for one of the three channels: eased blend inside the transition window,
the target value after it. -/
def frameValue (vfrom vto : ℚ) (tr : String) (trf lcl : ℤ) : ℚ :=
  if lcl < trf ∧ 0 < trf then vfrom + (vto - vfrom) * ease ((lcl : ℚ) / (trf : ℚ)) tr
  else vto

/-- The `zooms` array of `build_frame_params`.  The Python loop fills the
three arrays `zooms`, `fxs`, `fys` side by side over the same slices and
never reads them back, so each array is its own independent sequence of
slice writes. -/
def zooms (beats : List Beat) (tf : ℕ) (fps : ℚ) : ℕ → ℚ :=
  sliceWrites
    (fun bi f => frameValue (fromCam beats bi).zoom (camOf beats bi).zoom
      (camOf beats bi).transition (tr_frames (camOf beats bi) fps)
      ((f : ℤ) - paramStart beats.length tf bi))
    (paramStart beats.length tf) (paramEnd beats.length tf) (fun _ => 0) beats.length

/-- The `fxs` array of `build_frame_params`. -/
def fxs (beats : List Beat) (tf : ℕ) (fps : ℚ) : ℕ → ℚ :=
  sliceWrites
    (fun bi f => frameValue (fromCam beats bi).focusX (camOf beats bi).focusX
      (camOf beats bi).transition (tr_frames (camOf beats bi) fps)
      ((f : ℤ) - paramStart beats.length tf bi))
    (paramStart beats.length tf) (paramEnd beats.length tf) (fun _ => 0) beats.length

/-- The `fys` array of `build_frame_params`. -/
def fys (beats : List Beat) (tf : ℕ) (fps : ℚ) : ℕ → ℚ :=
  sliceWrites
    (fun bi f => frameValue (fromCam beats bi).focusY (camOf beats bi).focusY
      (camOf beats bi).transition (tr_frames (camOf beats bi) fps)
      ((f : ℤ) - paramStart beats.length tf bi))
    (paramStart beats.length tf) (paramEnd beats.length tf) (fun _ => 0) beats.length

/-- Source `build_frame_params` (lines 83-127).  The `total_duration`
parameter of the Python function is unused in its body and is dropped. -/
def build_frame_params (beats : List Beat) (tf : ℕ) (fps : ℚ) :
    (ℕ → ℚ) × (ℕ → ℚ) × (ℕ → ℚ) :=
  (zooms beats tf fps, fxs beats tf fps, fys beats tf fps)

/-!
Lemmas about the slice-write fold and the slice boundaries.
-/

theorem sliceWrites_succ {α : Type} (g : ℕ → ℕ → α) (lo hi : ℕ → ℤ) (init : ℕ → α)
    (n : ℕ) :
    sliceWrites g lo hi init (n+1) = fun f : ℕ =>
      if lo n ≤ (f : ℤ) ∧ (f : ℤ) < hi n then g n f
      else sliceWrites g lo hi init n f := by
  unfold sliceWrites
  rw [List.range_succ, List.foldl_append]
  rfl

theorem sliceWrites_eq_of_mem {α : Type} (g : ℕ → ℕ → α) (lo hi : ℕ → ℤ) (init : ℕ → α)
    {n bi f : ℕ} (hbi : bi < n)
    (hlo : lo bi ≤ (f : ℤ)) (hhi : (f : ℤ) < hi bi)
    (hafter : ∀ m, bi < m → m < n → (f : ℤ) < lo m) :
    sliceWrites g lo hi init n f = g bi f := by
  induction n with
  | zero => omega
  | succ k ih =>
    rw [sliceWrites_succ]
    beta_reduce
    by_cases hk : bi = k
    · subst hk
      simp only [hlo, hhi, and_self, if_pos]
    · have hbk : bi < k := by omega
      have hnot : ¬ (lo k ≤ (f : ℤ) ∧ (f : ℤ) < hi k) := by
        intro hc
        have := hafter k (by omega) (by omega)
        omega
      rw [if_neg hnot]
      exact ih hbk (fun m hm1 hm2 => hafter m hm1 (by omega))

theorem sliceWrites_cases {α : Type} (g : ℕ → ℕ → α) (lo hi : ℕ → ℤ) (init : ℕ → α)
    (n f : ℕ) :
    sliceWrites g lo hi init n f = init f ∨
      ∃ bi, bi < n ∧ sliceWrites g lo hi init n f = g bi f := by
  induction n with
  | zero => left; rfl
  | succ k ih =>
    rw [sliceWrites_succ]
    beta_reduce
    by_cases hc : lo k ≤ (f : ℤ) ∧ (f : ℤ) < hi k
    · right
      exact ⟨k, by omega, by rw [if_pos hc]⟩
    · rw [if_neg hc]
      rcases ih with h | ⟨bi, h1, h2⟩
      · left; exact h
      · right; exact ⟨bi, by omega, h2⟩

theorem idxStart_mono (n tf : ℕ) {a b : ℕ} (h : a ≤ b) :
    idxStart n tf a ≤ idxStart n tf b := by
  apply pyRound_mono
  rcases Nat.eq_zero_or_pos n with h0 | h0
  · simp [h0]
  · have hn : (0 : ℚ) < (n : ℚ) := by exact_mod_cast h0
    apply (div_le_div_iff_of_pos_right hn).mpr
    have ha : (a : ℚ) ≤ (b : ℚ) := by exact_mod_cast h
    have htf : (0 : ℚ) ≤ (tf : ℚ) := by positivity
    exact mul_le_mul_of_nonneg_right ha htf

theorem paramStart_eq_idxStart (n tf bi : ℕ) : paramStart n tf bi = idxStart n tf bi := by
  unfold paramStart idxStart
  rw [mul_div_assoc]

theorem paramEnd_eq_idxEnd (n tf bi : ℕ) : paramEnd n tf bi = idxEnd n tf bi := by
  unfold paramEnd idxEnd
  rw [paramStart_eq_idxStart]

theorem idxStart_zero (n tf : ℕ) : idxStart n tf 0 = 0 := by
  unfold idxStart
  have h : ((0 : ℕ) : ℚ) * (tf : ℚ) / (n : ℚ) = ((0 : ℤ) : ℚ) := by push_cast; ring
  rw [h, pyRound_intCast]

theorem idxStart_self (n tf : ℕ) (h : 1 ≤ n) : idxStart n tf n = tf := by
  unfold idxStart
  have hn : (n : ℚ) ≠ 0 := by
    have : (0 : ℚ) < (n : ℚ) := by exact_mod_cast h
    linarith
  have hq : (n : ℚ) * (tf : ℚ) / (n : ℚ) = (tf : ℚ) := by
    field_simp
  rw [hq, pyRound_natCast]

theorem idxStart_le_tf (n tf : ℕ) (h : 1 ≤ n) {bi : ℕ} (hbi : bi ≤ n) :
    idxStart n tf bi ≤ (tf : ℤ) := by
  have := idxStart_mono n tf hbi
  rw [idxStart_self n tf h] at this
  exact this

theorem idxStart_nonneg (n tf bi : ℕ) : 0 ≤ idxStart n tf bi := by
  apply pyRound_nonneg
  positivity

theorem exists_unique_idx_slice (n tf : ℕ) (h1 : 1 ≤ n) {f : ℕ} (hf : f < tf) :
    ∃! bi : ℕ, bi < n ∧ idxStart n tf bi ≤ (f : ℤ) ∧ (f : ℤ) < idxEnd n tf bi := by
  have hP0 : idxStart n tf 0 ≤ (f : ℤ) := by
    rw [idxStart_zero]
    exact Int.natCast_nonneg f
  have hPbi : idxStart n tf (Nat.findGreatest (fun j => idxStart n tf j ≤ (f : ℤ)) (n-1))
      ≤ (f : ℤ) :=
    Nat.findGreatest_spec (P := fun j => idxStart n tf j ≤ (f : ℤ)) (Nat.zero_le _) hP0
  set bi := Nat.findGreatest (fun j => idxStart n tf j ≤ (f : ℤ)) (n-1) with hbi_def
  have hbi_le : bi ≤ n - 1 := Nat.findGreatest_le _
  have hnext : (f : ℤ) < idxStart n tf (bi+1) := by
    by_cases hcase : bi + 1 ≤ n - 1
    · have hnp := Nat.findGreatest_is_greatest (P := fun j => idxStart n tf j ≤ (f : ℤ))
        (Nat.lt_succ_self bi) hcase
      have hnp2 : ¬ (idxStart n tf (bi + 1) ≤ (f : ℤ)) := hnp
      omega
    · have hn : bi + 1 = n := by omega
      rw [hn, idxStart_self n tf h1]
      exact_mod_cast hf
  refine ⟨bi, ⟨by omega, hPbi, ?_⟩, ?_⟩
  · exact lt_min hnext (by exact_mod_cast hf)
  · rintro bj ⟨hbj, hlo, hhi⟩
    rcases lt_trichotomy bj bi with hlt | heq | hgt
    · exfalso
      have h1' : idxEnd n tf bj ≤ idxStart n tf (bj+1) := min_le_left _ _
      have h2' : idxStart n tf (bj+1) ≤ idxStart n tf bi := idxStart_mono n tf (by omega)
      omega
    · exact heq
    · exfalso
      have h2' : idxStart n tf (bi+1) ≤ idxStart n tf bj := idxStart_mono n tf (by omega)
      omega

/-- C1: for every beat list of length `n ≥ 1` and every `total_frames ≥ n`,
the slices of `build_beat_index` partition `[0, total_frames)`: each frame
lies in exactly one slice, consecutive slices share their boundary
(contiguous and non-overlapping), the last slice ends exactly at
`total_frames`, and the beat index the array assigns to each frame is the
one whose slice contains it. -/
theorem build_beat_index_partition (n tf : ℕ) (h1 : 1 ≤ n) (_h2 : n ≤ tf) :
    (∀ f : ℕ, f < tf →
      ∃! bi : ℕ, bi < n ∧ idxStart n tf bi ≤ (f : ℤ) ∧ (f : ℤ) < idxEnd n tf bi) ∧
    (∀ bi : ℕ, bi + 1 < n → idxEnd n tf bi = idxStart n tf (bi+1)) ∧
    idxEnd n tf (n-1) = (tf : ℤ) ∧
    (∀ f : ℕ, f < tf →
      idxStart n tf (build_beat_index n tf f) ≤ (f : ℤ) ∧
      (f : ℤ) < idxEnd n tf (build_beat_index n tf f)) := by
  refine ⟨fun f hf => exists_unique_idx_slice n tf h1 hf, ?_, ?_, ?_⟩
  · intro bi hbi
    unfold idxEnd
    exact min_eq_left (idxStart_le_tf n tf h1 (by omega))
  · have hn : n - 1 + 1 = n := by omega
    unfold idxEnd
    rw [hn, idxStart_self n tf h1]
    exact min_self _
  · intro f hf
    obtain ⟨bi, ⟨hbi, hlo, hhi⟩, _⟩ := exists_unique_idx_slice n tf h1 hf
    have harr : build_beat_index n tf f = bi := by
      unfold build_beat_index
      apply sliceWrites_eq_of_mem _ _ _ _ hbi hlo hhi
      intro m hm1 hm2
      have ha : idxEnd n tf bi ≤ idxStart n tf (bi+1) := min_le_left _ _
      have hb : idxStart n tf (bi+1) ≤ idxStart n tf m := idxStart_mono n tf (by omega)
      omega
    rw [harr]
    exact ⟨hlo, hhi⟩

/-- C1 witness at the concrete input `n = 3`, `total_frames = 10`. -/
theorem build_beat_index_partition_witness :
    1 ≤ 3 ∧ 3 ≤ 10 ∧
    ((∀ f : ℕ, f < 10 →
        ∃! bi : ℕ, bi < 3 ∧ idxStart 3 10 bi ≤ (f : ℤ) ∧ (f : ℤ) < idxEnd 3 10 bi) ∧
     (∀ bi : ℕ, bi + 1 < 3 → idxEnd 3 10 bi = idxStart 3 10 (bi+1)) ∧
     idxEnd 3 10 (3-1) = ((10 : ℕ) : ℤ) ∧
     (∀ f : ℕ, f < 10 →
        idxStart 3 10 (build_beat_index 3 10 f) ≤ (f : ℤ) ∧
        (f : ℤ) < idxEnd 3 10 (build_beat_index 3 10 f))) :=
  ⟨by decide, by decide, build_beat_index_partition 3 10 (by decide) (by decide)⟩

/-!
Claim C2 concerns the agreement of the two boundary computations.  In the
exact-rational model `bi * (total_frames / n_beats)` and
`(bi * total_frames) / n_beats` coincide, but the program evaluates them in
IEEE-754 binary64 ("double") arithmetic, where they do not: line 85 first
rounds `beat_frames = total_frames / n_beats` to a double and line 107
rounds the product `bi * beat_frames` again, while line 138 divides the
exact integer `bi * total_frames` by `n` with a single rounding.  At
`n_beats = 14`, `total_frames = 29`, `bi = 7`, the first path gives
`round(14.500000000000002) = 15` and the second `round(14.5) = 14`
(ties to even), so frame 14 lies in beat 6's parameter slice but in beat
7's index slice.  The definitions below model the binary64 evaluation of
exactly these two source expressions: `fl64` is round-to-nearest,
ties-to-even at 53 significand bits (exact on this input range — no
subnormals or overflow).
-/

/-- Fuel-bounded `⌊log2 n⌋` on naturals (fuel 200 covers every value this
file evaluates). -/
def natLog2 : ℕ → ℕ → ℕ
  | 0, _ => 0
  | fuel+1, n => if 2 ≤ n then natLog2 fuel (n / 2) + 1 else 0

/-- `2^e` in `ℚ` for an integer exponent. -/
def pow2 (e : ℤ) : ℚ :=
  if 0 ≤ e then ((2 ^ e.toNat : ℕ) : ℚ) else 1 / ((2 ^ (-e).toNat : ℕ) : ℚ)

/-- `⌊log2 q⌋` for positive `q`: the numerator/denominator estimate is off
by at most one, corrected by a single comparison. -/
def floorLog2 (q : ℚ) : ℤ :=
  let e0 : ℤ := (natLog2 200 q.num.natAbs : ℤ) - (natLog2 200 q.den : ℤ)
  if q < pow2 e0 then e0 - 1 else e0

/-- IEEE-754 binary64 rounding of an exact rational: scale into
`[2^52, 2^53)`, round the significand to nearest with ties to even
(`pyRound` is exactly that rule), and scale back. -/
def fl64 (q : ℚ) : ℚ :=
  if q = 0 then 0
  else if q < 0 then
    -((pyRound ((-q) / pow2 (floorLog2 (-q) - 52)) : ℚ) * pow2 (floorLog2 (-q) - 52))
  else (pyRound (q / pow2 (floorLog2 q - 52)) : ℚ) * pow2 (floorLog2 q - 52)

/-- `f_start` of `build_frame_params` line 107 under the program's real
float semantics: `beat_frames = total_frames / n_beats` (line 85) is one
float division, `bi * beat_frames` one float multiplication, then
`round`. -/
def paramStartFloat (n tf bi : ℕ) : ℤ :=
  pyRound (fl64 ((bi : ℚ) * fl64 ((tf : ℚ) / (n : ℚ))))

/-- `f_start` of `build_beat_index` line 138 under the program's real
float semantics: `bi * total_frames` is exact Python integer
multiplication, followed by one float division by `n`, then `round`. -/
def idxStartFloat (n tf bi : ℕ) : ℤ :=
  pyRound (fl64 (((bi : ℚ) * (tf : ℚ)) / (n : ℚ)))

/-- C2: the claim fails on the program's float arithmetic.  With 14 beats
and 29 frames, `build_frame_params` starts beat 7's parameter slice at
frame 15 (it rounds the double `7 * (29/14) = 14.500000000000002` up)
while `build_beat_index` starts beat 7's index slice at frame 14 (it
rounds the double `7*29/14 = 14.5` to even); beat 6's parameter slice is
`[12, 15)` and beat 7's index slice is `[14, 17)`, so frame 14 receives
beat 6's camera parameters while `beat_idx[14] = 7` — the slice
boundaries are not equal and camera and subtitle data disagree about the
active beat. -/
theorem slice_boundary_float_mismatch :
    paramStartFloat 14 29 7 = 15 ∧ idxStartFloat 14 29 7 = 14 ∧
    paramStartFloat 14 29 6 = 12 ∧ idxStartFloat 14 29 8 = 17 := by decide

/-- C9: for `n ≥ 1` every element of the `build_beat_index` array is at
most `n - 1`, so `beats[beat_idx[fi]]` in the render loop is in bounds. -/
theorem build_beat_index_in_bounds (n tf : ℕ) (h1 : 1 ≤ n) :
    ∀ f : ℕ, f < tf → build_beat_index n tf f ≤ n - 1 := by
  intro f _
  unfold build_beat_index
  rcases sliceWrites_cases (fun bi _ => bi) (idxStart n tf) (idxEnd n tf) (fun _ => 0) n f
    with h | ⟨bi, hbi, h⟩
  · rw [h]
    omega
  · rw [h]
    omega

/-- C9 witness at the concrete input `n = 3`, `total_frames = 5`, `f = 2`. -/
theorem build_beat_index_in_bounds_witness :
    1 ≤ 3 ∧ 2 < 5 ∧ build_beat_index 3 5 2 ≤ 3 - 1 :=
  ⟨by decide, by decide, build_beat_index_in_bounds 3 5 (by decide) 2 (by decide)⟩

/-!
Per-slice closed form of the three `build_frame_params` arrays.
-/

theorem param_after (n tf : ℕ) {bi f : ℕ} (hhi : (f : ℤ) < paramEnd n tf bi) :
    ∀ m, bi < m → (f : ℤ) < paramStart n tf m := by
  intro m hm
  have ha : paramEnd n tf bi ≤ paramStart n tf (bi+1) := min_le_left _ _
  have hb : paramStart n tf (bi+1) ≤ paramStart n tf m := by
    rw [paramStart_eq_idxStart, paramStart_eq_idxStart]
    exact idxStart_mono _ _ (by omega)
  omega

theorem zooms_slice (beats : List Beat) (tf : ℕ) (fps : ℚ) {bi f : ℕ}
    (hbi : bi < beats.length)
    (hlo : paramStart beats.length tf bi ≤ (f : ℤ))
    (hhi : (f : ℤ) < paramEnd beats.length tf bi) :
    zooms beats tf fps f = frameValue (fromCam beats bi).zoom (camOf beats bi).zoom
      (camOf beats bi).transition (tr_frames (camOf beats bi) fps)
      ((f : ℤ) - paramStart beats.length tf bi) := by
  unfold zooms
  exact sliceWrites_eq_of_mem _ _ _ _ hbi hlo hhi
    (fun m hm _ => param_after beats.length tf hhi m hm)

theorem fxs_slice (beats : List Beat) (tf : ℕ) (fps : ℚ) {bi f : ℕ}
    (hbi : bi < beats.length)
    (hlo : paramStart beats.length tf bi ≤ (f : ℤ))
    (hhi : (f : ℤ) < paramEnd beats.length tf bi) :
    fxs beats tf fps f = frameValue (fromCam beats bi).focusX (camOf beats bi).focusX
      (camOf beats bi).transition (tr_frames (camOf beats bi) fps)
      ((f : ℤ) - paramStart beats.length tf bi) := by
  unfold fxs
  exact sliceWrites_eq_of_mem _ _ _ _ hbi hlo hhi
    (fun m hm _ => param_after beats.length tf hhi m hm)

theorem fys_slice (beats : List Beat) (tf : ℕ) (fps : ℚ) {bi f : ℕ}
    (hbi : bi < beats.length)
    (hlo : paramStart beats.length tf bi ≤ (f : ℤ))
    (hhi : (f : ℤ) < paramEnd beats.length tf bi) :
    fys beats tf fps f = frameValue (fromCam beats bi).focusY (camOf beats bi).focusY
      (camOf beats bi).transition (tr_frames (camOf beats bi) fps)
      ((f : ℤ) - paramStart beats.length tf bi) := by
  unfold fys
  exact sliceWrites_eq_of_mem _ _ _ _ hbi hlo hhi
    (fun m hm _ => param_after beats.length tf hhi m hm)

/-- C3: inside each beat's slice, the transition window length is
`round(duration * fps)` frames, forced to 0 for CUT/HOLD or zero duration;
a frame whose local index lies inside the window gets the eased blend
`from + (to - from) * ease(local / window, transition)` in each of the
three channels, and any other frame of the slice holds the target value
exactly. -/
theorem build_frame_params_transition (beats : List Beat) (tf : ℕ) (fps : ℚ)
    {bi f : ℕ} (hbi : bi < beats.length)
    (hlo : paramStart beats.length tf bi ≤ (f : ℤ))
    (hhi : (f : ℤ) < paramEnd beats.length tf bi) :
    tr_frames (camOf beats bi) fps =
      (if (camOf beats bi).transition = "CUT" ∨ (camOf beats bi).transition = "HOLD" ∨
          (camOf beats bi).duration = 0 then 0
       else pyRound ((camOf beats bi).duration * fps)) ∧
    (((f : ℤ) - paramStart beats.length tf bi < tr_frames (camOf beats bi) fps ∧
        0 < tr_frames (camOf beats bi) fps) →
      (build_frame_params beats tf fps).1 f =
        (fromCam beats bi).zoom + ((camOf beats bi).zoom - (fromCam beats bi).zoom) *
          ease ((((f : ℤ) - paramStart beats.length tf bi : ℤ) : ℚ) /
            ((tr_frames (camOf beats bi) fps : ℤ) : ℚ)) (camOf beats bi).transition ∧
      (build_frame_params beats tf fps).2.1 f =
        (fromCam beats bi).focusX + ((camOf beats bi).focusX - (fromCam beats bi).focusX) *
          ease ((((f : ℤ) - paramStart beats.length tf bi : ℤ) : ℚ) /
            ((tr_frames (camOf beats bi) fps : ℤ) : ℚ)) (camOf beats bi).transition ∧
      (build_frame_params beats tf fps).2.2 f =
        (fromCam beats bi).focusY + ((camOf beats bi).focusY - (fromCam beats bi).focusY) *
          ease ((((f : ℤ) - paramStart beats.length tf bi : ℤ) : ℚ) /
            ((tr_frames (camOf beats bi) fps : ℤ) : ℚ)) (camOf beats bi).transition) ∧
    (¬ ((f : ℤ) - paramStart beats.length tf bi < tr_frames (camOf beats bi) fps ∧
        0 < tr_frames (camOf beats bi) fps) →
      (build_frame_params beats tf fps).1 f = (camOf beats bi).zoom ∧
      (build_frame_params beats tf fps).2.1 f = (camOf beats bi).focusX ∧
      (build_frame_params beats tf fps).2.2 f = (camOf beats bi).focusY) := by
  refine ⟨rfl, ?_, ?_⟩
  · intro hc
    refine ⟨?_, ?_, ?_⟩
    · show zooms beats tf fps f = _
      rw [zooms_slice beats tf fps hbi hlo hhi]
      unfold frameValue
      rw [if_pos hc]
    · show fxs beats tf fps f = _
      rw [fxs_slice beats tf fps hbi hlo hhi]
      unfold frameValue
      rw [if_pos hc]
    · show fys beats tf fps f = _
      rw [fys_slice beats tf fps hbi hlo hhi]
      unfold frameValue
      rw [if_pos hc]
  · intro hc
    refine ⟨?_, ?_, ?_⟩
    · show zooms beats tf fps f = _
      rw [zooms_slice beats tf fps hbi hlo hhi]
      unfold frameValue
      rw [if_neg hc]
    · show fxs beats tf fps f = _
      rw [fxs_slice beats tf fps hbi hlo hhi]
      unfold frameValue
      rw [if_neg hc]
    · show fys beats tf fps f = _
      rw [fys_slice beats tf fps hbi hlo hhi]
      unfold frameValue
      rw [if_neg hc]

/-- Beats used to instantiate witnesses on concrete inputs. -/
def witBeatA : Beat := ⟨"1a", ⟨1, 50, 50, "CUT", 0⟩, "Hello"⟩

/-- Second witness beat, with a linear transition of duration 2. -/
def witBeatB : Beat := ⟨"2a", ⟨2, 40, 60, "linear", 2⟩, "World"⟩

/-- C3 witness at the concrete input `[witBeatA, witBeatB]`,
`total_frames = 10`, `fps = 30`, `bi = 1`, `f = 5`. -/
theorem build_frame_params_transition_witness :
    1 < [witBeatA, witBeatB].length ∧
    paramStart [witBeatA, witBeatB].length 10 1 ≤ ((5 : ℕ) : ℤ) ∧
    ((5 : ℕ) : ℤ) < paramEnd [witBeatA, witBeatB].length 10 1 ∧
    (¬ (((5 : ℕ) : ℤ) - paramStart [witBeatA, witBeatB].length 10 1 <
          tr_frames (camOf [witBeatA, witBeatB] 1) 30 ∧
        0 < tr_frames (camOf [witBeatA, witBeatB] 1) 30) →
      (build_frame_params [witBeatA, witBeatB] 10 30).1 5 = (camOf [witBeatA, witBeatB] 1).zoom ∧
      (build_frame_params [witBeatA, witBeatB] 10 30).2.1 5 = (camOf [witBeatA, witBeatB] 1).focusX ∧
      (build_frame_params [witBeatA, witBeatB] 10 30).2.2 5 = (camOf [witBeatA, witBeatB] 1).focusY) :=
  ⟨by decide, by decide, by decide,
   (build_frame_params_transition [witBeatA, witBeatB] 10 30 (by decide)
      (by decide) (by decide)).2.2⟩

/-- `frameValue` collapses to the target when source and target agree. -/
theorem frameValue_self (v : ℚ) (tr : String) (trf lcl : ℤ) :
    frameValue v v tr trf lcl = v := by
  unfold frameValue
  split
  · ring
  · rfl

/-- C5: every frame of the first beat's slice holds beat 0's target camera
values exactly (slice 0's from-values are beat 0's own targets), and for a
single-beat list this covers every frame of the whole path. -/
theorem first_slice_holds_target (beats : List Beat) (tf : ℕ) (fps : ℚ)
    (h1 : 1 ≤ beats.length) :
    (∀ f : ℕ, paramStart beats.length tf 0 ≤ (f : ℤ) →
      (f : ℤ) < paramEnd beats.length tf 0 →
      (build_frame_params beats tf fps).1 f = (camOf beats 0).zoom ∧
      (build_frame_params beats tf fps).2.1 f = (camOf beats 0).focusX ∧
      (build_frame_params beats tf fps).2.2 f = (camOf beats 0).focusY) ∧
    (beats.length = 1 → ∀ f : ℕ, f < tf →
      (build_frame_params beats tf fps).1 f = (camOf beats 0).zoom ∧
      (build_frame_params beats tf fps).2.1 f = (camOf beats 0).focusX ∧
      (build_frame_params beats tf fps).2.2 f = (camOf beats 0).focusY) := by
  have hfrom : fromCam beats 0 = camOf beats 0 := by
    unfold fromCam
    rw [if_pos rfl]
  have hmain : ∀ f : ℕ, paramStart beats.length tf 0 ≤ (f : ℤ) →
      (f : ℤ) < paramEnd beats.length tf 0 →
      (build_frame_params beats tf fps).1 f = (camOf beats 0).zoom ∧
      (build_frame_params beats tf fps).2.1 f = (camOf beats 0).focusX ∧
      (build_frame_params beats tf fps).2.2 f = (camOf beats 0).focusY := by
    intro f hlo hhi
    refine ⟨?_, ?_, ?_⟩
    · show zooms beats tf fps f = _
      rw [zooms_slice beats tf fps h1 hlo hhi, hfrom, frameValue_self]
    · show fxs beats tf fps f = _
      rw [fxs_slice beats tf fps h1 hlo hhi, hfrom, frameValue_self]
    · show fys beats tf fps f = _
      rw [fys_slice beats tf fps h1 hlo hhi, hfrom, frameValue_self]
  refine ⟨hmain, ?_⟩
  intro hlen f hf
  apply hmain
  · rw [paramStart_eq_idxStart, idxStart_zero]
    exact Int.natCast_nonneg f
  · have hend : paramEnd beats.length tf 0 = (tf : ℤ) := by
      unfold paramEnd
      rw [paramStart_eq_idxStart, hlen, idxStart_self 1 tf (by omega)]
      exact min_self _
    rw [hend]
    exact_mod_cast hf

/-- C5 witness at the concrete input `[witBeatA]`, `total_frames = 3`,
`fps = 30`, `f = 1`. -/
theorem first_slice_holds_target_witness :
    1 ≤ [witBeatA].length ∧ [witBeatA].length = 1 ∧ 1 < 3 ∧
    ((build_frame_params [witBeatA] 3 30).1 1 = (camOf [witBeatA] 0).zoom ∧
     (build_frame_params [witBeatA] 3 30).2.1 1 = (camOf [witBeatA] 0).focusX ∧
     (build_frame_params [witBeatA] 3 30).2.2 1 = (camOf [witBeatA] 0).focusY) :=
  ⟨by decide, by decide, by decide,
   (first_slice_holds_target [witBeatA] 3 30 (by decide)).2 (by decide) 1 (by decide)⟩

/-!
SRT subtitle writer, `camera_apply.py` lines 217-242.  `write_srt` is
modelled up to the produced list of lines (the function then joins them
with a newline and writes the file).  Python's `script.startswith("[")`
is only ever used with the one-character prefix `"["`, so it is embedded
as a first-character test.
-/

/-- Python `script.startswith("[")`: the first character is `'['`. -/
def isSilent (script : String) : Bool :=
  match script.data with
  | c :: _ => c == '['
  | [] => false

/-- Python's `f"{n:0wd}"` formatting: decimal digits left-padded with `'0'`
to width `w` (all values formatted by the program are nonnegative). -/
def pad0 (w : ℕ) (n : ℤ) : String :=
  let s := toString n
  if s.length < w then String.mk (List.replicate (w - s.length) '0') ++ s else s

/-- Source `fmt_srt_time` (lines 217-222): `int(x // y)` of a nonnegative
float is the floor of the quotient, `%` is `pyMod`, `int(...)` on a
possibly fractional value is `pyInt`, `round` is `pyRound`. -/
def fmt_srt_time (seconds : ℚ) : String :=
  let h := ⌊seconds / 3600⌋
  let m := ⌊pyMod seconds 3600 / 60⌋
  let s := pyInt (pyMod seconds 60)
  let ms := pyRound ((seconds - (pyInt seconds : ℚ)) * 1000)
  pad0 2 h ++ ":" ++ pad0 2 m ++ ":" ++ pad0 2 s ++ "," ++ pad0 3 ms

/-- The body of `write_srt`'s loop (lines 229-239): the accumulator is the
pair `(lines, idx)`, the element is `(bi, beat)` from `enumerate(beats)`;
silent beats are skipped without advancing `idx`. -/
def srt_step (bd : ℚ) (acc : List String × ℕ) (p : ℕ × Beat) : List String × ℕ :=
  if isSilent p.2.script then acc
  else
    (acc.1 ++ [toString acc.2,
       fmt_srt_time ((p.1 : ℚ) * bd) ++ " --> " ++ fmt_srt_time (((p.1 : ℚ) + 1) * bd),
       p.2.script, ""],
     acc.2 + 1)

/-- Source `write_srt` (lines 224-241), up to the produced lines:
`beat_dur = total_duration / n`, the loop runs over `enumerate(beats)`
with `lines = []` and `idx = 1`. -/
def write_srt_lines (beats : List Beat) (total_duration : ℚ) : List String :=
  ((List.enumFrom 0 beats).foldl (srt_step (total_duration / (beats.length : ℚ))) ([], 1)).1

/-- One SRT entry as the spec describes it: sequence number, timecode line
`start --> end` for beat `bi`'s span, caption, blank separator. -/
def srt_entry (bd : ℚ) (num bi : ℕ) (script : String) : List String :=
  [toString num,
   fmt_srt_time ((bi : ℚ) * bd) ++ " --> " ++ fmt_srt_time (((bi : ℚ) + 1) * bd),
   script, ""]

/-- The spec's description of the subtitle track (spec section 4.4): one
entry per non-silent beat, in beat order, numbered consecutively from 1 by
position among the non-silent beats, each spanning
`[bi * beat_dur, (bi+1) * beat_dur)`. -/
def srt_spec_lines (beats : List Beat) (total_duration : ℚ) : List String :=
  let bd := total_duration / (beats.length : ℚ)
  (List.map (fun q => srt_entry bd (q.1 + 1) q.2.1 q.2.2.script)
    (List.enumFrom 0 ((List.enumFrom 0 beats).filter (fun p => ! isSilent p.2.script)))).flatten

/-- Recursive middle form shared by the two directions of the proof:
`bi` is the current beat index, `idx` the next entry number. -/
def srt_go (bd : ℚ) : ℕ → ℕ → List Beat → List String
  | _, _, [] => []
  | bi, idx, b :: rest =>
    if isSilent b.script then srt_go bd (bi+1) idx rest
    else srt_entry bd idx bi b.script ++ srt_go bd (bi+1) (idx+1) rest

/-- Count of non-silent beats. -/
def countNS (l : List Beat) : ℕ := (l.filter (fun b => ! isSilent b.script)).length

theorem srt_foldl_eq (bd : ℚ) (l : List Beat) :
    ∀ (k idx : ℕ) (acc : List String),
      (List.enumFrom k l).foldl (srt_step bd) (acc, idx) =
        (acc ++ srt_go bd k idx l, idx + countNS l) := by
  induction l with
  | nil =>
    intro k idx acc
    simp [srt_go, countNS]
  | cons b rest ih =>
    intro k idx acc
    rw [List.enumFrom_cons, List.foldl_cons]
    by_cases hs : isSilent b.script = true
    · have hstep : srt_step bd (acc, idx) (k, b) = (acc, idx) := by
        unfold srt_step
        rw [if_pos hs]
      have hgo : srt_go bd k idx (b :: rest) = srt_go bd (k+1) idx rest := by
        simp only [srt_go]
        rw [if_pos hs]
      have hcnt : countNS (b :: rest) = countNS rest := by
        simp [countNS, List.filter_cons, hs]
      rw [hstep, ih (k+1) idx acc, hgo, hcnt]
    · have hstep : srt_step bd (acc, idx) (k, b) =
          (acc ++ srt_entry bd idx k b.script, idx + 1) := by
        unfold srt_step srt_entry
        rw [if_neg hs]
      have hgo : srt_go bd k idx (b :: rest) =
          srt_entry bd idx k b.script ++ srt_go bd (k+1) (idx+1) rest := by
        simp only [srt_go]
        rw [if_neg hs]
      have hcnt : countNS (b :: rest) = countNS rest + 1 := by
        simp [countNS, List.filter_cons, hs]
      rw [hstep, ih (k+1) (idx+1) (acc ++ srt_entry bd idx k b.script), hgo, hcnt,
        List.append_assoc]
      have hn : idx + 1 + countNS rest = idx + (countNS rest + 1) := by omega
      rw [hn]

theorem srt_spec_eq (bd : ℚ) (l : List Beat) :
    ∀ (k j : ℕ),
      (List.map (fun q => srt_entry bd (q.1 + 1) q.2.1 q.2.2.script)
        (List.enumFrom j ((List.enumFrom k l).filter (fun p => ! isSilent p.2.script)))).flatten =
        srt_go bd k (j+1) l := by
  induction l with
  | nil =>
    intro k j
    simp [srt_go]
  | cons b rest ih =>
    intro k j
    rw [List.enumFrom_cons, List.filter_cons]
    by_cases hs : isSilent b.script = true
    · have hgo : srt_go bd k (j+1) (b :: rest) = srt_go bd (k+1) (j+1) rest := by
        simp only [srt_go]
        rw [if_pos hs]
      have hcond : (! isSilent (Prod.snd (k, b)).script) = false := by
        simp [hs]
      rw [hcond, if_neg (by simp), hgo]
      exact ih (k+1) j
    · have hgo : srt_go bd k (j+1) (b :: rest) =
          srt_entry bd (j+1) k b.script ++ srt_go bd (k+1) (j+2) rest := by
        simp only [srt_go]
        rw [if_neg hs]
      have hcond : (! isSilent (Prod.snd (k, b)).script) = true := by
        simp [hs]
      rw [hcond, if_pos rfl, List.enumFrom_cons, List.map_cons, List.flatten_cons, hgo]
      have := ih (k+1) (j+1)
      rw [this]

/-- C6: the SRT writer emits exactly one entry per non-silent beat, in beat
order, numbered consecutively from 1 (silent beats skipped in numbering),
each spanning `[bi * (total_duration/n), (bi+1) * (total_duration/n))`
with `HH:MM:SS,mmm --> HH:MM:SS,mmm` timecodes, caption, and blank-line
separator: `write_srt_lines` equals the spec-shaped `srt_spec_lines`. -/
theorem write_srt_matches_spec (beats : List Beat) (td : ℚ)
    (_h1 : 1 ≤ beats.length) (_h2 : 0 < td) :
    write_srt_lines beats td = srt_spec_lines beats td := by
  unfold write_srt_lines srt_spec_lines
  rw [srt_foldl_eq (td / (beats.length : ℚ)) beats 0 1 [],
    srt_spec_eq (td / (beats.length : ℚ)) beats 0 0]
  simp

/-- The claim's example beat list: three beats, the middle one silent. -/
def srtExampleBeats : List Beat :=
  [⟨"1a", ⟨1, 50, 50, "CUT", 0⟩, "Hello"⟩,
   ⟨"1b", ⟨1, 50, 50, "CUT", 0⟩, "[pause]"⟩,
   ⟨"2a", ⟨1, 50, 50, "CUT", 0⟩, "World"⟩]

/-- C6 witness: the claim's concrete example with `total_duration = 30`;
the output has exactly the two entries `"1"`
(`00:00:00,000 --> 00:00:10,000`, Hello) and `"2"`
(`00:00:20,000 --> 00:00:30,000`, World), with beat `1b` absent. -/
theorem write_srt_matches_spec_witness :
    1 ≤ srtExampleBeats.length ∧ (0 : ℚ) < 30 ∧
    write_srt_lines srtExampleBeats 30 = srt_spec_lines srtExampleBeats 30 ∧
    write_srt_lines srtExampleBeats 30 =
      ["1", "00:00:00,000 --> 00:00:10,000", "Hello", "",
       "2", "00:00:20,000 --> 00:00:30,000", "World", ""] :=
  ⟨by decide, by norm_num,
   write_srt_matches_spec srtExampleBeats 30 (by decide) (by norm_num),
   by decide⟩
/-!
Claim C7: spec section 7 requires timeline compilation to validate the
beat list (zoom > 0, focus in range) and fail fast; the code contains no
validation whatsoever, so invalid camera values flow straight into the
per-frame arrays.
-/

/-- A beat with an invalid camera: `zoom = -1` (the data model requires
`zoom > 0`). -/
def invalidBeat : Beat := ⟨"1a", ⟨-1, 50, 50, "CUT", 0⟩, "x"⟩

/-- C7 evidence: compiling the timeline over the invalid beat raises no
error and simply emits the invalid zoom as frame 0's parameter, instead of
failing before rendering as the spec requires. -/
theorem build_frame_params_no_validation :
    (build_frame_params [invalidBeat] 10 30).1 0 = -1 := by decide

/-!
Frame transform, `camera_apply.py` lines 148-157.  An image is a pixel
function together with its dimensions; `cv2.resize` is an external
collaborator and is modelled from the spec.
-/

/-- Source `apply_transform` lines 150-155: the crop rectangle
`(x1, y1, crop_w, crop_h)`; Python `//` on ints is floor division
(`Int.fdiv`). -/
def transform_rect (w h : ℕ) (zoom fx_pct fy_pct : ℚ) : ℤ × ℤ × ℤ × ℤ :=
  let crop_w := pyRound ((w : ℚ) / zoom)
  let crop_h := pyRound ((h : ℚ) / zoom)
  let cx := pyRound (fx_pct / 100 * (w : ℚ))
  let cy := pyRound (fy_pct / 100 * (h : ℚ))
  let x1 := max 0 (min ((w : ℤ) - crop_w) (cx - Int.fdiv crop_w 2))
  let y1 := max 0 (min ((h : ℤ) - crop_h) (cy - Int.fdiv crop_h 2))
  (x1, y1, crop_w, crop_h)

/-- NumPy slicing `frame[y1:y1+crop_h, x1:x1+crop_w]` for an in-bounds
rectangle: pixel `(i, j)` of the crop is pixel `(y1+i, x1+j)` of the
frame. -/
def cropPix (pix : ℕ → ℕ → ℤ) (x1 y1 : ℤ) : ℕ → ℕ → ℤ :=
  fun i j => pix (y1.toNat + i) (x1.toNat + j)

/-- Modelled from the spec: `cv2.resize` is an external collaborator (spec
sections 1, 4.3).  Resampling a `w×h` image to the same `w×h` evaluates
the interpolation kernel at the exact source grid points, leaving every
pixel unchanged, so the same-size case is the identity; other sizes use
nearest-point sampling, which no claim exercises. -/
def cv2_resize (pix : ℕ → ℕ → ℤ) (srcW srcH dstW dstH : ℕ) : ℕ → ℕ → ℤ :=
  if srcW = dstW ∧ srcH = dstH then pix
  else fun i j => pix (i * srcH / dstH) (j * srcW / dstW)

/-- Source `apply_transform` (lines 148-157): crop, then resize back to
the original `w×h`. -/
def apply_transform (w h : ℕ) (pix : ℕ → ℕ → ℤ) (zoom fx_pct fy_pct : ℚ) :
    ℕ → ℕ → ℤ :=
  let r := transform_rect w h zoom fx_pct fy_pct
  cv2_resize (cropPix pix r.1 r.2.1) r.2.2.1.toNat r.2.2.2.toNat w h

theorem ceil_sub_half_ge_floor (q : ℚ) : ⌊q⌋ ≤ ⌈q - 1/2⌉ := by
  by_contra hc
  push_neg at hc
  have h1 : ⌈q - 1/2⌉ ≤ ⌊q⌋ - 1 := by omega
  have h2 : q - 1/2 ≤ ((⌊q⌋ - 1 : ℤ) : ℚ) := by
    calc q - 1/2 ≤ (⌈q - 1/2⌉ : ℚ) := Int.le_ceil _
    _ ≤ ((⌊q⌋ - 1 : ℤ) : ℚ) := by exact_mod_cast h1
  have h3 := Int.floor_le q
  push_cast at h2
  linarith

theorem floor_le_pyRound (q : ℚ) : ⌊q⌋ ≤ pyRound q :=
  le_trans (ceil_sub_half_ge_floor q) (ceil_le_pyRound q)

/-- C8: at `zoom = 1`, `focusX = focusY = 50`, the computed crop rectangle
is the full frame (`x1 = y1 = 0`, `crop_w = w`, `crop_h = h`) and the
resize back to `w×h` is a same-size resize, i.e. the identity: the frame
is returned unchanged. -/
theorem transform_identity_at_unit_zoom (w h : ℕ) (pix : ℕ → ℕ → ℤ) :
    transform_rect w h 1 50 50 = (0, 0, (w : ℤ), (h : ℤ)) ∧
    apply_transform w h pix 1 50 50 = pix := by
  have hcw : pyRound ((w : ℚ) / 1) = (w : ℤ) := by
    rw [div_one, pyRound_natCast]
  have hch : pyRound ((h : ℚ) / 1) = (h : ℤ) := by
    rw [div_one, pyRound_natCast]
  have hx : ∀ n : ℕ, (50 : ℚ) / 100 * (n : ℚ) = (n : ℚ) / 2 := by
    intro n
    ring
  have hside : ∀ n : ℕ,
      max 0 (min ((n : ℤ) - pyRound ((n : ℚ) / 1))
        (pyRound ((50 : ℚ) / 100 * (n : ℚ)) - Int.fdiv (pyRound ((n : ℚ) / 1)) 2)) = 0 := by
    intro n
    have hn : pyRound ((n : ℚ) / 1) = (n : ℤ) := by rw [div_one, pyRound_natCast]
    rw [hn, hx n, sub_self]
    have hfd : Int.fdiv (n : ℤ) 2 = (n : ℤ) / 2 := Int.fdiv_eq_ediv _ (by norm_num)
    have hfl : ⌊(n : ℚ) / 2⌋ = (n : ℤ) / 2 := by
      have h := Rat.floor_natCast_div_natCast n 2
      push_cast at h
      exact h
    have hge : 0 ≤ pyRound ((n : ℚ) / 2) - Int.fdiv (n : ℤ) 2 := by
      have hfp := floor_le_pyRound ((n : ℚ) / 2)
      rw [hfl] at hfp
      rw [hfd]
      omega
    rw [min_eq_left hge]
    exact max_self 0
  have hrect : transform_rect w h 1 50 50 = (0, 0, (w : ℤ), (h : ℤ)) := by
    simp only [transform_rect]
    rw [hside w, hside h, hcw, hch]
  refine ⟨hrect, ?_⟩
  simp only [apply_transform]
  rw [hrect]
  dsimp only
  have hcrop : cropPix pix 0 0 = pix := by
    funext i j
    simp [cropPix]
  rw [hcrop, Int.toNat_natCast, Int.toNat_natCast]
  simp [cv2_resize]

/-!
Default-strategy cascade of `src/scripts/detect_regions.py`
(`detect_regions`, lines 815-831, and `_fallback_center_regions`,
lines 66-75).  The four strategy calls are external OpenCV pipelines;
the cascade is proved for arbitrary results of those calls, so the
theorem covers every readable image.
-/

/-- A detected region: a polygon as a list of pixel coordinates. -/
abbrev Region : Type := List (ℤ × ℤ)

/-- Source `_fallback_center_regions` (lines 66-75): one centred rectangle
covering 60% of the image, truncated to `max_regions` entries; the
computed `cx, cy` of the source are unused there and are dropped. -/
def fallback_center_regions (w h max_regions : ℕ) : List Region :=
  let pad_w := pyInt ((w : ℚ) * 0.2)
  let pad_h := pyInt ((h : ℚ) * 0.2)
  let x1 := pad_w
  let y1 := pad_h
  let x2 := (w : ℤ) - pad_w
  let y2 := (h : ℤ) - pad_h
  ([[(x1, y1), (x2, y1), (x2, y2), (x1, y2)]] : List Region).take max_regions

/-- The `strategy == "default"` cascade of `detect_regions` (lines 817-829)
and the result tuple `(regions, w, h, None)` (line 831), for an image that
was read successfully; Python's `if not regions:` is an emptiness test. -/
def detect_default (adaptive otsu canny color : List Region)
    (w h max_regions : ℕ) : List Region × ℕ × ℕ × Option String :=
  let r1 := adaptive
  let r2 := if r1.isEmpty then otsu else r1
  let r3 := if r2.isEmpty then canny else r2
  let r4 := if r3.length ≤ 2 then (if r3.length < color.length then color else r3) else r3
  let r5 := if r4.isEmpty then fallback_center_regions w h max_regions else r4
  (r5, w, h, none)

theorem fallback_center_regions_ne_nil (w h max_regions : ℕ)
    (hmr : 1 ≤ max_regions) : fallback_center_regions w h max_regions ≠ [] := by
  unfold fallback_center_regions
  cases max_regions with
  | zero => omega
  | succ m => simp

theorem ifEmpty_ne_nil (X : List Region) (w h mr : ℕ) (hmr : 1 ≤ mr) :
    (if X.isEmpty then fallback_center_regions w h mr else X) ≠ [] := by
  split
  case isTrue => exact fallback_center_regions_ne_nil w h mr hmr
  case isFalse hne =>
    intro hnil
    rw [hnil] at hne
    simp at hne

/-- C10: for every readable image and `max_regions ≥ 1`, the default
strategy returns a non-empty region list and no error, whatever the
adaptive/otsu/canny/color strategies find: the cascade ends with the
center-weighted fallback when everything else is empty. -/
theorem detect_default_nonempty (adaptive otsu canny color : List Region)
    (w h max_regions : ℕ) (hmr : 1 ≤ max_regions) :
    (detect_default adaptive otsu canny color w h max_regions).1 ≠ [] ∧
    (detect_default adaptive otsu canny color w h max_regions).2.2.2 = none :=
  ⟨ifEmpty_ne_nil _ w h max_regions hmr, rfl⟩

/-- C10 witness at the concrete input: every strategy finds nothing,
`w = h = 10`, `max_regions = 5`. -/
theorem detect_default_nonempty_witness :
    1 ≤ 5 ∧
    ((detect_default [] [] [] [] 10 10 5).1 ≠ [] ∧
     (detect_default [] [] [] [] 10 10 5).2.2.2 = none) :=
  ⟨by decide, detect_default_nonempty [] [] [] [] 10 10 5 (by decide)⟩
